import Mathlib

/-!
Shallow embedding of the core analysis utilities of the
twitter_engagement_analysis repository (src/utils/analysis_utils.py and
load_archive), together with theorems settling the specification claims
about them.

Modelling conventions:
* A pandas DataFrame is a list of row structures; a column that can be
  absent from the table is tracked by a Bool flag on the table, and a
  cell that can be null is an Option field on the row.
* The several historical naming variants probed for one semantic column
  (for example full_text, text, tweet.full_text, tweet.text) are
  collapsed into a single field, since the code resolves them to one
  value per row.
* Timestamps are modelled by their parse result: some t for a value that
  pd.to_datetime parses, none for a missing or unparsable value (NaT).
  UTC instants are compared through an injective numeric key.
* Engagement counts are embedded as Int and the winsorization quantile
  arithmetic as exact Rat, mirroring the float arithmetic on the small
  integer inputs it receives.
-/

/-! ## Constants (analysis_utils.py lines 10-25) -/

def MY_USER_ID : String := "707078994852622336"

def MY_SCREEN_NAME : String := "christophcsmith"

def WINSORIZE_THRESHOLD : ℚ := 95 / 100

/-! ## UTC timestamps -/

structure UTCTime where
  year : Nat
  month : Nat
  day : Nat
  hour : Nat
  minute : Nat
  second : Nat
deriving DecidableEq

/-- Injective key for chronological comparison of UTC instants: the bases
13, 32, 24, 60, 60 strictly bound the month, day, hour, minute and second
fields, so comparing keys is the lexicographic (chronological) order. -/
def UTCTime.key (t : UTCTime) : Nat :=
  ((((t.year * 13 + t.month) * 32 + t.day) * 24 + t.hour) * 60 + t.minute) * 60 + t.second

def TIER_UPGRADED_START : UTCTime := ⟨2023, 9, 12, 0, 0, 0⟩

def TIER_POST_UPGRADE_START : UTCTime := ⟨2024, 9, 12, 0, 0, 0⟩

/-- assign_tier (analysis_utils.py lines 372-382). A NaT timestamp compares
false under both pandas comparisons and therefore falls through to the
post-upgrade label. -/
def assign_tier (ts : Option UTCTime) : String :=
  match ts with
  | none => "tier_post_upgrade"
  | some t =>
    if t.key < TIER_UPGRADED_START.key then "tier_pre_upgrade"
    else if TIER_UPGRADED_START.key ≤ t.key ∧ t.key ≤ TIER_POST_UPGRADE_START.key then
      "tier_upgraded"
    else "tier_post_upgrade"

/-! ## Raw rows (one tweet record after archive loading) -/

structure RawRow where
  id_str : String
  /-- Parse result of the created_at cell: none models a missing or
  unparsable value, which pd.to_datetime with errors coerce maps to NaT. -/
  created_at : Option UTCTime
  full_text : Option String
  retweeted : Option Bool
  /-- Whether a nested retweeted_status object is present on the row. -/
  retweeted_status : Bool
  is_quote_status : Option Bool
  quoted_status_id_str : Option String
  /-- Whether some URL entity of the row expands to a twitter.com status
  link (the scan over entities.urls in detect_quote, lines 186-191). -/
  has_status_link_url : Bool
  in_reply_to_status_id_str : Option String
  in_reply_to_user_id_str : Option String
  /-- Numeric parse result of the favorite_count cell: none models a
  missing cell or a non-numeric value, which to_numeric with errors
  coerce maps to NaN before fillna(0). -/
  favorite_count : Option Int
  retweet_count : Option Int
  reply_count : Option Int
  bookmark_count : Option Int
deriving DecidableEq

/-- A neutral row used as the base of concrete examples. -/
def defaultRaw : RawRow :=
  { id_str := "0", created_at := none, full_text := none, retweeted := none,
    retweeted_status := false, is_quote_status := none, quoted_status_id_str := none,
    has_status_link_url := false, in_reply_to_status_id_str := none,
    in_reply_to_user_id_str := none, favorite_count := none, retweet_count := none,
    reply_count := none, bookmark_count := none }

/-! ## Detection utilities (analysis_utils.py lines 158-192) -/

/-- Python str.startswith, on the character sequences of the strings. -/
def strStartsWith (s pre : String) : Bool :=
  pre.data.isPrefixOf s.data

/-- detect_retweet (lines 158-171): an explicit non-null retweeted flag is
returned as-is (even when false); otherwise a present retweeted_status
object yields true; otherwise the text heuristic applies. -/
def detect_retweet (row : RawRow) : Bool :=
  match row.retweeted with
  | some b => b
  | none =>
    if row.retweeted_status then true
    else strStartsWith (row.full_text.getD "") "RT @"

/-- detect_quote (lines 174-192), with the URL-entity scan abstracted into
the has_status_link_url field. -/
def detect_quote (row : RawRow) : Bool :=
  match row.is_quote_status with
  | some b => b
  | none =>
    if row.quoted_status_id_str.isSome then true
    else row.has_status_link_url

/-- classify_reply (lines 356-362): none for a null reply-target user id,
reply_own when it equals a nonempty resolved self id, reply_other
otherwise. -/
def classify_reply (reply_user : Option String) (resolved_user_id : String) : String :=
  match reply_user with
  | none => "none"
  | some v =>
    if v = resolved_user_id ∧ resolved_user_id ≠ "" then "reply_own" else "reply_other"

/-! ## Thread reconstruction (analysis_utils.py lines 196-252) -/

structure TRecord where
  id_str : String
  reply : Option String
deriving DecidableEq

def defaultT : TRecord := ⟨"", none⟩

/-- The child-to-parent map built from the rows whose reply cell is
non-null (lines 223-227). -/
def parentMap (rows : List TRecord) : List (String × String) :=
  rows.filterMap (fun r => r.reply.map (fun p => (r.id_str, p)))

/-- The while loop inside find_thread_root (lines 237-242), with explicit
fuel. The path is accumulated most-recent-first, so the Python path[-1]
is the head here; the Bool records whether the walk stopped because it
revisited an id (cycle) rather than because the current id has no parent.
Fuel exhaustion returns none; walkAux_isSome below shows the fuel used by
findRootPath always suffices. -/
def walkAux (pm : List (String × String)) : Nat → String → List String → Option (List String × Bool)
  | 0, _, _ => none
  | fuel + 1, curr, path =>
    match pm.lookup curr with
    | none => some (path, false)
    | some p => if p ∈ path then some (path, true) else walkAux pm fuel p (p :: path)

/-- The full walk of find_thread_root from one id, before consulting or
updating the cache. -/
def findRootPath (pm : List (String × String)) (tid : String) : List String × Bool :=
  (walkAux pm (pm.length + 1) tid [tid]).getD ([tid], true)

/-- The thread root that an uncached walk from tid computes (path[-1]). -/
def rootOf (pm : List (String × String)) (tid : String) : String :=
  (findRootPath pm tid).1.headD tid

/-- find_thread_root (lines 231-246) including the cache: a hit returns the
cached root; a miss walks, then records the root for every id on the
path. New entries are prepended so that they shadow older ones, matching
Python dict assignment. -/
def find_thread_root (pm : List (String × String)) (cache : List (String × String))
    (tid : String) : String × List (String × String) :=
  match cache.lookup tid with
  | some r => (r, cache)
  | none =>
    let path := (findRootPath pm tid).1
    let root := path.headD tid
    (root, path.map (fun n => (n, root)) ++ cache)

/-- The apply of find_thread_root over the id column in row order
(line 248), threading the cache through. -/
def assignThreadIds (pm : List (String × String)) :
    List String → List (String × String) → List String
  | [], _ => []
  | tid :: rest, cache =>
    let rc := find_thread_root pm cache tid
    rc.1 :: assignThreadIds pm rest rc.2

/-- reconstruct_threads (lines 196-252) restricted to the thread_id
column: the thread_step_index and is_thread_starter columns are derived
afterwards from the chronological grouping and are not needed by the
claims. -/
def reconstruct_threads (rows : List TRecord) : List String :=
  assignThreadIds (parentMap rows) (rows.map TRecord.id_str) []

/-- The per-id thread assignment: association of each id (in row order)
with its assigned thread_id. -/
def threadIdAssignment (rows : List TRecord) : List (String × String) :=
  (rows.map TRecord.id_str).zip (reconstruct_threads rows)

/-! ## Timestamp ordering (normalize_datetime, lines 126-150) -/

/-- Comparison used by the sort on the post_datetime index: valid
timestamps ascending by instant, NaT placed after every valid timestamp
(pandas sort_index default na_position last). -/
def tsLe (a b : Option UTCTime) : Bool :=
  match a, b with
  | none, none => true
  | none, some _ => false
  | some _, none => true
  | some x, some y => x.key ≤ y.key

def rowLe (a b : RawRow) : Prop := tsLe a.created_at b.created_at = true

instance : DecidableRel rowLe := fun _ _ => Bool.decEq _ _

instance : IsTotal RawRow rowLe where
  total a b := by
    rw [rowLe, rowLe]
    cases a.created_at <;> cases b.created_at <;> simp [tsLe] <;> omega

instance : IsTrans RawRow rowLe where
  trans a b c := by
    rw [rowLe, rowLe, rowLe]
    cases a.created_at <;> cases b.created_at <;> cases c.created_at <;>
      simp [tsLe] <;> omega

/-! ## Feature engineering (engineer_features, lines 256-420) -/

structure RawTable where
  /-- Whether an id column resolves under any known naming variant. -/
  hasId : Bool
  /-- Whether a text column resolves under any known naming variant. -/
  hasText : Bool
  /-- Whether a timestamp column resolves under any known naming variant. -/
  hasCreatedAt : Bool
  rows : List RawRow
deriving DecidableEq

/-- The fillna of the resolved text column (line 297): null texts become
the empty string; this rewrites an original column of the table. -/
def fillText (r : RawRow) : RawRow :=
  { r with full_text := some (r.full_text.getD "") }

def likesOf (r : RawRow) : Int := r.favorite_count.getD 0

def retweetsOf (r : RawRow) : Int := r.retweet_count.getD 0

def repliesOf (r : RawRow) : Int := r.reply_count.getD 0

def bookmarksOf (r : RawRow) : Int := r.bookmark_count.getD 0

def totalEngagement (r : RawRow) : Int :=
  likesOf r + retweetsOf r + repliesOf r + bookmarksOf r

/-- Series.quantile with the pandas default linear interpolation, at
probability q: position q * (n - 1) in the sorted values, interpolating
between the neighbouring order statistics. Returns 0 on an empty list
(pandas yields NaN there; the pipeline only consults the value through
clip, and the claims only concern nonempty tables). -/
def quantileLinear (q : ℚ) (xs : List ℚ) : ℚ :=
  let s := List.insertionSort (fun a b : ℚ => a ≤ b) xs
  match s.length with
  | 0 => 0
  | m + 1 =>
    let pos : ℚ := q * m
    let i : Nat := pos.floor.toNat
    let lo := s.getD i 0
    let hi := s.getD (i + 1) lo
    lo + (pos - i) * (hi - lo)

structure FeatRow where
  /-- The original columns of the row as they appear in the returned
  table (the text column already carries the fillna rewrite). -/
  orig : RawRow
  post_datetime : Option UTCTime
  is_retweet : Bool
  is_quote_tweet : Bool
  reply_type : String
  account_tier : String
  likes : Int
  retweets : Int
  replies : Int
  bookmarks : Int
  total_engagement : Int
  winsorized_engagement : ℚ
  thread_id : String
deriving DecidableEq

def defaultFeat : FeatRow :=
  { orig := defaultRaw, post_datetime := none, is_retweet := false,
    is_quote_tweet := false, reply_type := "none", account_tier := "",
    likes := 0, retweets := 0, replies := 0, bookmarks := 0,
    total_engagement := 0, winsorized_engagement := 0, thread_id := "" }

/-- One row of the feature-engineered table, given the resolved self id
and the winsorization cap computed over the whole table. The derived
columns not consulted by any claim (has_link, has_media,
text_length_chars, num_hashtags, num_mentions, has_question_mark,
weekday, hour_of_day, month, thread_step_index, is_thread_starter) are
omitted. -/
def mkFeat (r : RawRow) (resolved : String) (cap : ℚ) : FeatRow :=
  { orig := r
    post_datetime := r.created_at
    is_retweet := detect_retweet r
    is_quote_tweet := detect_quote r
    reply_type := classify_reply r.in_reply_to_user_id_str resolved
    account_tier := assign_tier r.created_at
    likes := likesOf r
    retweets := retweetsOf r
    replies := repliesOf r
    bookmarks := bookmarksOf r
    total_engagement := totalEngagement r
    winsorized_engagement := min ((totalEngagement r : Int) : ℚ) cap
    thread_id := "" }

/-- The feature-engineering stages of engineer_features between its
schema checks, which are pure: sort by the normalized timestamp with NaT
last, null-fill the text column, resolve the self id from the argument
or the module constant, coerce engagement counts with missing and
non-numeric cells as 0, clip total_engagement at its own 95th
percentile, and attach thread ids by zipping the reconstruction back
onto the rows. -/
def engineerCore (rows : List RawRow) (my_user_id : Option String) : List FeatRow :=
  let sorted := List.insertionSort rowLe rows
  let rows2 := sorted.map fillText
  let resolved := my_user_id.getD MY_USER_ID
  let cap := quantileLinear WINSORIZE_THRESHOLD
    (rows2.map (fun r => ((totalEngagement r : Int) : ℚ)))
  let feats := rows2.map (fun r => mkFeat r resolved cap)
  let tids := reconstruct_threads
    (feats.map (fun f => ⟨f.orig.id_str, f.orig.in_reply_to_status_id_str⟩))
  List.zipWith (fun f tid => { f with thread_id := tid }) feats tids

/-- engineer_features (lines 256-420) on the modelled table. The source
raises in stage order — normalize_datetime when no timestamp column
resolves, then text resolution when no text column resolves, then
reconstruct_threads when no id column resolves — and every stage in
between is a pure column computation, so the call is the three checks in
that precedence followed by the pure core. -/
def engineer_features (t : RawTable) (my_user_id : Option String) :
    Except String (List FeatRow) :=
  if !t.hasCreatedAt then Except.error "No timestamp column found"
  else if !t.hasText then Except.error "No text column found"
  else if !t.hasId then Except.error "No id column found"
  else Except.ok (engineerCore t.rows my_user_id)

/-! ## Core sample filter (create_core_sample, lines 423-430) -/

def coreMask (r : FeatRow) : Bool :=
  (!r.is_retweet) && (!r.is_quote_tweet) &&
    (r.reply_type == "none" || r.reply_type == "reply_other")

def create_core_sample (rows : List FeatRow) : List FeatRow :=
  rows.filter coreMask

/-! ## Archive loader (load_archive, lines 29-81) -/

inductive JValue where
  | jnull : JValue
  | jbool : Bool → JValue
  | jnum : Int → JValue
  | jstr : String → JValue
  | jarr : List JValue → JValue
  | jobj : List (String × JValue) → JValue

def JValue.objLookup : JValue → String → Option JValue
  | .jobj fs, k => fs.lookup k
  | _, _ => none

/-- Whether a column named k appears among the parsed rows (pandas takes
the union of the record keys as the columns). -/
def hasCol (rows : List JValue) (k : String) : Bool :=
  rows.any (fun r => (r.objLookup k).isSome)

def firstRowField (rows : List JValue) (k : String) : Option JValue :=
  match rows with
  | [] => none
  | r :: _ => r.objLookup k

/-- The check guarding the tweet-unwrapping branches: the tweet column
exists and its value on the first row is an object. -/
def tweetWrapped (rows : List JValue) : Bool :=
  hasCol rows "tweet" &&
    (match firstRowField rows "tweet" with
     | some (.jobj _) => true
     | _ => false)

/-- pd.json_normalize over the tweet column: each row is replaced by its
tweet field. -/
def unwrapTweet (rows : List JValue) : List JValue :=
  rows.map (fun r => (r.objLookup "tweet").getD JValue.jnull)

/-- The two parse attempts the loader makes on the document. asLines is
the result of pd.read_json with lines true when it succeeds (one parsed
record per line) and none when it raises ValueError; asSingle is the
result of json.load on the whole document when it succeeds and none when
it raises JSONDecodeError (for example on a document holding more than
one top-level JSON value, such as multi-line JSON Lines). -/
structure RawDoc where
  asLines : Option (List JValue)
  asSingle : Option JValue

inductive LoadError where
  | jsonDecodeError : LoadError
  | unsupportedStructure : LoadError
deriving DecidableEq

/-- load_archive (lines 29-81). The first stage mirrors the read_json
attempt: a non-empty line-parse returns only through the tweet-wrapping
branch or the single-row tweets branch, and otherwise falls through to
the json.load stage, exactly as the Python control flow does. The
json.load stage raises an uncaught JSONDecodeError when the whole
document is not a single JSON value, dispatches lists and objects, and
raises the ValueError naming the unsupported structure on any other
top-level value. -/
def load_archive (doc : RawDoc) : Except LoadError (List JValue) :=
  let fallback : Except LoadError (List JValue) :=
    match doc.asSingle with
    | none => Except.error LoadError.jsonDecodeError
    | some (.jarr xs) =>
      if tweetWrapped xs then Except.ok (unwrapTweet xs) else Except.ok xs
    | some (.jobj fs) =>
      match fs.lookup "tweets" with
      | some (.jarr xs) =>
        if tweetWrapped xs then Except.ok (unwrapTweet xs) else Except.ok xs
      | _ =>
        let rows := [JValue.jobj fs]
        if tweetWrapped rows then Except.ok (unwrapTweet rows) else Except.ok rows
    | some _ => Except.error LoadError.unsupportedStructure
  match doc.asLines with
  | none => fallback
  | some rows =>
    if rows.isEmpty then fallback
    else if tweetWrapped rows then Except.ok (unwrapTweet rows)
    else if hasCol rows "tweets" && rows.length == 1 then
      match firstRowField rows "tweets" with
      | some (.jarr xs) =>
        if tweetWrapped xs then Except.ok (unwrapTweet xs) else Except.ok xs
      | _ => fallback
    else fallback

/-! ## Abstract reachability along the parent map -/

/-- One parent-pointer step: y is the recorded parent of x. -/
def stepRel (pm : List (String × String)) (x y : String) : Prop :=
  pm.lookup x = some y

/-- Reachability by following parent pointers zero or more times. -/
def Steps (pm : List (String × String)) : String → String → Prop :=
  Relation.ReflTransGen (stepRel pm)

/-- r is the true root of the chain starting at x: reachable from x and
without a recorded parent. -/
def IsRoot (pm : List (String × String)) (x r : String) : Prop :=
  Steps pm x r ∧ pm.lookup r = none

/-- Invariant carried through the cache while reconstructing a table that
contains the mutual-reply pair a and b: any cached root for a or b is
itself one of a and b. -/
def pairCacheOK (a b : String) (cache : List (String × String)) : Prop :=
  (∀ r, cache.lookup a = some r → r = a ∨ r = b) ∧
  (∀ r, cache.lookup b = some r → r = a ∨ r = b)

/-! ## Concrete tables used by counterexamples and witnesses -/

def cexRows1 : List TRecord := [⟨"A", some "B"⟩, ⟨"B", some "A"⟩]

def cexRows2 : List TRecord := [⟨"B", some "A"⟩, ⟨"A", some "B"⟩]

def wRows1 : List TRecord := [⟨"A", some "R"⟩, ⟨"B", some "A"⟩]

def wRows2 : List TRecord := [⟨"B", some "A"⟩, ⟨"A", some "R"⟩]

def exFeatOwn : FeatRow := { defaultFeat with reply_type := "reply_own" }

def exFeatOther : FeatRow := { defaultFeat with reply_type := "reply_other" }

/-- A well-formed row: valid timestamp, text, a numeric count. -/
def exRowText : RawRow := { defaultRaw with
  id_str := "1"
  created_at := some ⟨2023, 1, 1, 0, 0, 0⟩
  full_text := some "hello"
  favorite_count := some 20 }

/-- A degraded row: unparsable timestamp, null text, non-numeric count,
replying to the well-formed row and to the configured self id. -/
def exRowNull : RawRow := { defaultRaw with
  id_str := "2"
  in_reply_to_status_id_str := some "1"
  in_reply_to_user_id_str := some "707078994852622336" }

def exT9 : RawTable :=
  { hasId := true, hasText := true, hasCreatedAt := true, rows := [exRowNull, exRowText] }

def exOut9 : List FeatRow := (engineer_features exT9 none).toOption.getD []

def exT8 : RawTable :=
  { hasId := true, hasText := true, hasCreatedAt := true, rows := [exRowNull] }

def exOut8 : List FeatRow := (engineer_features exT8 none).toOption.getD []

/-- A two-line JSON Lines document of flat records: the line parse
succeeds with two rows, the whole-document json.load fails. -/
def exDoc10 : RawDoc :=
  { asLines := some [JValue.jobj [("id", JValue.jstr "1")], JValue.jobj [("id", JValue.jstr "2")]]
    asSingle := none }

/-! ## Lemmas: association-list lookups -/

theorem lookup_mem {pm : List (String × String)} {k v : String} :
    pm.lookup k = some v → (k, v) ∈ pm := by
  induction pm with
  | nil => intro h; simp [List.lookup] at h
  | cons kv rest ih =>
    intro h
    rcases kv with ⟨k1, v1⟩
    by_cases hk : k = k1
    · subst hk
      simp [List.lookup] at h
      simp [h]
    · have hb : (k == k1) = false := by simp [hk]
      simp only [List.lookup, hb] at h
      exact List.mem_cons_of_mem _ (ih h)

theorem lookup_eq_none_iff {pm : List (String × String)} {k : String} :
    pm.lookup k = none ↔ k ∉ pm.map Prod.fst := by
  induction pm with
  | nil => simp [List.lookup]
  | cons kv rest ih =>
    rcases kv with ⟨k1, v1⟩
    by_cases hk : k = k1
    · subst hk
      simp [List.lookup]
    · have hb : (k == k1) = false := by simp [hk]
      simp [List.lookup, hb, ih, hk]

theorem mem_lookup_of_nodup {pm : List (String × String)} {k v : String}
    (hnd : (pm.map Prod.fst).Nodup) (h : (k, v) ∈ pm) : pm.lookup k = some v := by
  induction pm with
  | nil => simp at h
  | cons kv rest ih =>
    rcases kv with ⟨k1, v1⟩
    simp only [List.map_cons, List.nodup_cons] at hnd
    rcases List.mem_cons.mp h with h1 | h1
    · rw [Prod.mk.injEq] at h1
      rcases h1 with ⟨rfl, rfl⟩
      simp [List.lookup]
    · have hk : k ≠ k1 := by
        intro he
        subst he
        exact hnd.1 (List.mem_map_of_mem Prod.fst h1)
      have hb : (k == k1) = false := by simp [hk]
      simp only [List.lookup, hb]
      exact ih hnd.2 h1

theorem lookup_eq_of_perm {pm1 pm2 : List (String × String)}
    (hperm : pm1.Perm pm2) (hnd : (pm1.map Prod.fst).Nodup) (k : String) :
    pm1.lookup k = pm2.lookup k := by
  have hnd2 : (pm2.map Prod.fst).Nodup := ((hperm.map Prod.fst).nodup_iff).mp hnd
  cases h : pm1.lookup k with
  | some v => exact (mem_lookup_of_nodup hnd2 (hperm.mem_iff.mp (lookup_mem h))).symm
  | none =>
    cases h2 : pm2.lookup k with
    | none => rfl
    | some v =>
      exfalso
      have hmem : (k, v) ∈ pm1 := hperm.mem_iff.mpr (lookup_mem h2)
      exact (lookup_eq_none_iff.mp h) (List.mem_map_of_mem Prod.fst hmem)

theorem lookup_append_some {l1 l2 : List (String × String)} {k v : String}
    (h : l1.lookup k = some v) : (l1 ++ l2).lookup k = some v := by
  induction l1 with
  | nil => simp [List.lookup] at h
  | cons kv rest ih =>
    rcases kv with ⟨k1, v1⟩
    by_cases hk : (k == k1) = true <;> simp only [List.cons_append, List.lookup, hk] at h ⊢ <;>
      simp_all

theorem lookup_append_none {l1 l2 : List (String × String)} {k : String}
    (h : l1.lookup k = none) : (l1 ++ l2).lookup k = l2.lookup k := by
  induction l1 with
  | nil => rfl
  | cons kv rest ih =>
    rcases kv with ⟨k1, v1⟩
    by_cases hk : (k == k1) = true <;> simp only [List.cons_append, List.lookup, hk] at h ⊢ <;>
      simp_all

theorem lookup_map_pair (l : List String) (c k : String) :
    (l.map (fun n => (n, c))).lookup k = if k ∈ l then some c else none := by
  induction l with
  | nil => simp [List.lookup]
  | cons a rest ih =>
    by_cases hk : k = a
    · subst hk
      simp [List.lookup]
    · have hb : (k == a) = false := by simp [hk]
      simp [List.lookup, hb, ih, hk]

theorem lookup_zip_map (l : List String) (f : String → String) (k : String) :
    (l.zip (l.map f)).lookup k = if k ∈ l then some (f k) else none := by
  induction l with
  | nil => simp [List.lookup]
  | cons a rest ih =>
    by_cases hk : k = a
    · subst hk
      simp [List.zip_cons_cons, List.lookup]
    · have hb : (k == a) = false := by simp [hk]
      unfold List.zip at ih ⊢
      simp only [List.map_cons, List.zipWith_cons_cons, List.lookup, hb]
      rw [ih]
      simp [hk]

/-! ## Lemmas: the parent-pointer walk -/

theorem walkAux_isSome (pm : List (String × String)) (base : List String)
    (hbase : ∀ kv ∈ pm, kv.2 ∈ base) :
    ∀ (fuel : Nat) (curr : String) (path : List String),
      path.Nodup → (∀ x ∈ path, x ∈ base) → base.length < fuel + path.length →
      (walkAux pm fuel curr path).isSome := by
  intro fuel
  induction fuel with
  | zero =>
    intro curr path hnd hsub hlen
    exfalso
    have hle : path.length ≤ base.length := (hnd.subperm hsub).length_le
    omega
  | succ f ih =>
    intro curr path hnd hsub hlen
    rw [walkAux]
    cases h : pm.lookup curr with
    | none => simp
    | some p =>
      dsimp only
      by_cases hp : p ∈ path
      · simp [hp]
      · rw [if_neg hp]
        refine ih p (p :: path) (List.nodup_cons.mpr ⟨hp, hnd⟩) ?_ ?_
        · intro x hx
          rcases List.mem_cons.mp hx with rfl | hx
          · exact hbase _ (lookup_mem h)
          · exact hsub x hx
        · simp only [List.length_cons]
          omega

theorem findRootPath_eq (pm : List (String × String)) (tid : String) :
    walkAux pm (pm.length + 1) tid [tid] = some (findRootPath pm tid) := by
  have h := walkAux_isSome pm (tid :: pm.map Prod.snd)
    (fun kv hkv => List.mem_cons_of_mem _ (List.mem_map_of_mem _ hkv))
    (pm.length + 1) tid [tid] (by simp) (by simp)
    (by simp only [List.length_cons, List.length_map, List.length_singleton]; omega)
  rcases Option.isSome_iff_exists.mp h with ⟨r, hr⟩
  rw [findRootPath, hr]
  rfl

theorem headD_of_head? {l : List String} {r : String} (x : String)
    (h : l.head? = some r) : l.headD x = r := by
  cases l with
  | nil => simp at h
  | cons a t => simp at h; simpa using h

theorem walk_false_root (pm : List (String × String)) :
    ∀ (fuel : Nat) (curr : String) (path res : List String),
      walkAux pm fuel curr path = some (res, false) →
      path.head? = some curr →
      (∀ n ∈ path, Steps pm n curr) →
      ∃ r, res.head? = some r ∧ pm.lookup r = none ∧ (∀ n ∈ res, Steps pm n r) ∧
        path ⊆ res := by
  intro fuel
  induction fuel with
  | zero =>
    intro curr path res h
    simp [walkAux] at h
  | succ f ih =>
    intro curr path res h hhead hsteps
    rw [walkAux] at h
    cases hl : pm.lookup curr with
    | none =>
      rw [hl] at h
      simp only [Option.some.injEq, Prod.mk.injEq] at h
      rcases h with ⟨rfl, -⟩
      exact ⟨curr, hhead, hl, hsteps, fun x hx => hx⟩
    | some p =>
      rw [hl] at h
      dsimp only at h
      by_cases hp : p ∈ path
      · rw [if_pos hp] at h
        simp at h
      · rw [if_neg hp] at h
        have hsteps2 : ∀ n ∈ p :: path, Steps pm n p := by
          intro n hn
          rcases List.mem_cons.mp hn with rfl | hn
          · exact Relation.ReflTransGen.refl
          · exact (hsteps n hn).tail hl
        rcases ih p (p :: path) res h rfl hsteps2 with ⟨r, hr1, hr2, hr3, hr4⟩
        exact ⟨r, hr1, hr2, hr3, fun x hx => hr4 (List.mem_cons_of_mem _ hx)⟩

theorem steps_total {pm : List (String × String)} {a b : String} :
    ∀ {x : String}, Steps pm x a → Steps pm x b → Steps pm a b ∨ Steps pm b a := by
  intro x hxa
  induction hxa using Relation.ReflTransGen.head_induction_on with
  | refl => intro hxb; exact Or.inl hxb
  | head hstep htail ih =>
    intro hxb
    rcases Relation.ReflTransGen.cases_head hxb with rfl | ⟨z, hz, hzb⟩
    · exact Or.inr (Relation.ReflTransGen.head hstep htail)
    · cases Option.some.inj (hstep.symm.trans hz)
      exact ih hzb

theorem root_unique {pm : List (String × String)} {x r1 r2 : String}
    (h1 : IsRoot pm x r1) (h2 : IsRoot pm x r2) : r1 = r2 := by
  rcases steps_total h1.1 h2.1 with h | h
  · rcases Relation.ReflTransGen.cases_head h with h' | ⟨c, hc, -⟩
    · exact h'
    · rw [stepRel, h1.2] at hc
      cases hc
  · rcases Relation.ReflTransGen.cases_head h with h' | ⟨c, hc, -⟩
    · exact h'.symm
    · rw [stepRel, h2.2] at hc
      cases hc

theorem walk_through_cycle_pair {pm : List (String × String)} {a b : String}
    (ha : pm.lookup a = some b) (hb : pm.lookup b = some a) (hab : a ≠ b) :
    ∀ (fuel : Nat) (curr : String) (path res : List String) (flag : Bool),
      walkAux pm fuel curr path = some (res, flag) →
      path.head? = some curr → a ∉ path → b ∉ path →
      (a ∈ res ∨ b ∈ res) →
      ∃ r, res.head? = some r ∧ (r = a ∨ r = b) := by
  intro fuel
  induction fuel with
  | zero =>
    intro curr path res flag h
    simp [walkAux] at h
  | succ f ih =>
    intro curr path res flag h hhead hna hnb hmem
    rw [walkAux] at h
    cases hl : pm.lookup curr with
    | none =>
      rw [hl] at h
      simp only [Option.some.injEq, Prod.mk.injEq] at h
      rcases h with ⟨rfl, -⟩
      rcases hmem with hmem | hmem
      · exact absurd hmem hna
      · exact absurd hmem hnb
    | some p =>
      rw [hl] at h
      dsimp only at h
      by_cases hp : p ∈ path
      · rw [if_pos hp] at h
        simp only [Option.some.injEq, Prod.mk.injEq] at h
        rcases h with ⟨rfl, -⟩
        rcases hmem with hmem | hmem
        · exact absurd hmem hna
        · exact absurd hmem hnb
      · rw [if_neg hp] at h
        by_cases hpa : p = a
        · subst hpa
          cases f with
          | zero => simp [walkAux] at h
          | succ f2 =>
            rw [walkAux, ha] at h
            dsimp only at h
            have hbnotmem : b ∉ p :: path := by
              simp only [List.mem_cons, not_or]
              exact ⟨fun he => hab he.symm, hnb⟩
            rw [if_neg hbnotmem] at h
            cases f2 with
            | zero => simp [walkAux] at h
            | succ f3 =>
              rw [walkAux, hb] at h
              dsimp only at h
              rw [if_pos (by simp)] at h
              simp only [Option.some.injEq, Prod.mk.injEq] at h
              rcases h with ⟨rfl, -⟩
              exact ⟨b, by simp, Or.inr rfl⟩
        · by_cases hpb : p = b
          · subst hpb
            cases f with
            | zero => simp [walkAux] at h
            | succ f2 =>
              rw [walkAux, hb] at h
              dsimp only at h
              have hanotmem : a ∉ p :: path := by
                simp only [List.mem_cons, not_or]
                exact ⟨hab, hna⟩
              rw [if_neg hanotmem] at h
              cases f2 with
              | zero => simp [walkAux] at h
              | succ f3 =>
                rw [walkAux, ha] at h
                dsimp only at h
                rw [if_pos (by simp)] at h
                simp only [Option.some.injEq, Prod.mk.injEq] at h
                rcases h with ⟨rfl, -⟩
                exact ⟨a, by simp, Or.inl rfl⟩
          · refine ih p (p :: path) res flag h rfl ?_ ?_ hmem
            · simp only [List.mem_cons, not_or]
              exact ⟨fun he => hpa he.symm, hna⟩
            · simp only [List.mem_cons, not_or]
              exact ⟨fun he => hpb he.symm, hnb⟩

theorem fresh_walk_cycle_a {pm : List (String × String)} {a b : String}
    (ha : pm.lookup a = some b) (hb : pm.lookup b = some a) (hab : a ≠ b) :
    findRootPath pm a = ([b, a], true) := by
  obtain ⟨n, hn⟩ : ∃ n, pm.length = n + 1 := by
    cases pm with
    | nil => simp [List.lookup] at ha
    | cons kv rest => exact ⟨rest.length, rfl⟩
  rw [findRootPath, hn]
  rw [walkAux, ha]
  dsimp only
  rw [if_neg (by simp [Ne.symm hab])]
  rw [walkAux, hb]
  dsimp only
  rw [if_pos (by simp)]
  rfl

/-! ## Lemmas: cached reconstruction over a mutual-reply pair -/

theorem lookup_pair_append {path : List String} {root k : String}
    {cache : List (String × String)} (hk : k ∈ path) :
    (path.map (fun n => (n, root)) ++ cache).lookup k = some root := by
  apply lookup_append_some
  rw [lookup_map_pair]
  simp [hk]

theorem lookup_pair_append_notmem {path : List String} {root k : String}
    {cache : List (String × String)} (hk : k ∉ path) :
    (path.map (fun n => (n, root)) ++ cache).lookup k = cache.lookup k := by
  apply lookup_append_none
  rw [lookup_map_pair]
  simp [hk]

theorem find_thread_root_pair {pm : List (String × String)} {a b : String}
    (ha : pm.lookup a = some b) (hb : pm.lookup b = some a) (hab : a ≠ b)
    (cache : List (String × String)) (hok : pairCacheOK a b cache) (x : String) :
    ((x = a ∨ x = b) →
      ((find_thread_root pm cache x).1 = a ∨ (find_thread_root pm cache x).1 = b)) ∧
    pairCacheOK a b (find_thread_root pm cache x).2 := by
  rw [find_thread_root]
  cases hc : cache.lookup x with
  | some r =>
    refine ⟨?_, hok⟩
    rintro (rfl | rfl)
    · exact hok.1 r hc
    · exact hok.2 r hc
  | none =>
    dsimp only
    by_cases hxa : x = a
    · subst hxa
      rw [fresh_walk_cycle_a ha hb hab]
      dsimp only [List.headD]
      refine ⟨fun _ => Or.inr rfl, ?_, ?_⟩
      · intro r hr
        rw [lookup_pair_append (by simp)] at hr
        exact Or.inr (Option.some.inj hr).symm
      · intro r hr
        rw [lookup_pair_append (by simp)] at hr
        exact Or.inr (Option.some.inj hr).symm
    · by_cases hxb : x = b
      · subst hxb
        rw [fresh_walk_cycle_a hb ha (Ne.symm hab)]
        dsimp only [List.headD]
        refine ⟨fun _ => Or.inl rfl, ?_, ?_⟩
        · intro r hr
          rw [lookup_pair_append (by simp)] at hr
          exact Or.inl (Option.some.inj hr).symm
        · intro r hr
          rw [lookup_pair_append (by simp)] at hr
          exact Or.inl (Option.some.inj hr).symm
      · have hwalk : walkAux pm (pm.length + 1) x [x] =
            some ((findRootPath pm x).1, (findRootPath pm x).2) :=
          findRootPath_eq pm x
        have hrootab : ∀ n ∈ (findRootPath pm x).1, n = a ∨ n = b →
            ((findRootPath pm x).1.headD x = a ∨ (findRootPath pm x).1.headD x = b) := by
          intro n hn hnab
          have hmem : a ∈ (findRootPath pm x).1 ∨ b ∈ (findRootPath pm x).1 := by
            rcases hnab with rfl | rfl
            · exact Or.inl hn
            · exact Or.inr hn
          rcases walk_through_cycle_pair ha hb hab (pm.length + 1) x [x] _ _ hwalk rfl
            (by simp only [List.mem_singleton]; exact fun he => hxa he.symm)
            (by simp only [List.mem_singleton]; exact fun he => hxb he.symm)
            hmem with ⟨r, hr1, hr2⟩
          rw [headD_of_head? x hr1]
          exact hr2
        refine ⟨?_, ?_, ?_⟩
        · rintro (rfl | rfl)
          · exact absurd rfl hxa
          · exact absurd rfl hxb
        · intro r hr
          by_cases hmem : a ∈ (findRootPath pm x).1
          · rw [lookup_pair_append hmem] at hr
            have heq : (findRootPath pm x).1.headD x = r := Option.some.inj hr
            rw [← heq]
            exact hrootab a hmem (Or.inl rfl)
          · rw [lookup_pair_append_notmem hmem] at hr
            exact hok.1 r hr
        · intro r hr
          by_cases hmem : b ∈ (findRootPath pm x).1
          · rw [lookup_pair_append hmem] at hr
            have heq : (findRootPath pm x).1.headD x = r := Option.some.inj hr
            rw [← heq]
            exact hrootab b hmem (Or.inr rfl)
          · rw [lookup_pair_append_notmem hmem] at hr
            exact hok.2 r hr
theorem assign_pair {pm : List (String × String)} {a b : String}
    (ha : pm.lookup a = some b) (hb : pm.lookup b = some a) (hab : a ≠ b) :
    ∀ (ids : List String) (cache : List (String × String)), pairCacheOK a b cache →
      ∀ i, i < ids.length → (ids.getD i "" = a ∨ ids.getD i "" = b) →
        ((assignThreadIds pm ids cache).getD i "" = a ∨
          (assignThreadIds pm ids cache).getD i "" = b) := by
  intro ids
  induction ids with
  | nil =>
    intro cache hok i hi
    simp at hi
  | cons x rest ih =>
    intro cache hok i hi hid
    rw [assignThreadIds]
    cases i with
    | zero =>
      rw [List.getD_cons_zero] at hid ⊢
      exact (find_thread_root_pair ha hb hab cache hok x).1 hid
    | succ j =>
      rw [List.getD_cons_succ] at hid ⊢
      exact ih _ (find_thread_root_pair ha hb hab cache hok x).2 j
        (by simpa using Nat.lt_of_succ_lt_succ hi) hid

/-! ## Lemmas: the parent map of a table -/

theorem parentMap_keys_sublist (rows : List TRecord) :
    ((parentMap rows).map Prod.fst).Sublist (rows.map TRecord.id_str) := by
  induction rows with
  | nil => simp [parentMap]
  | cons r rest ih =>
    cases hr : r.reply with
    | none =>
      simp only [parentMap, List.filterMap_cons, hr, Option.map_none', List.map_cons]
      exact ih.cons _
    | some p =>
      simp only [parentMap, List.filterMap_cons, hr, Option.map_some', List.map_cons]
      exact ih.cons₂ _

theorem parentMap_lookup {rows : List TRecord} (hnd : (rows.map TRecord.id_str).Nodup)
    {r : TRecord} (hr : r ∈ rows) {p : String} (hp : r.reply = some p) :
    (parentMap rows).lookup r.id_str = some p := by
  have hmem : (r.id_str, p) ∈ parentMap rows := by
    rw [parentMap]
    exact List.mem_filterMap.mpr ⟨r, hr, by simp [hp]⟩
  exact mem_lookup_of_nodup ((parentMap_keys_sublist rows).nodup hnd) hmem

theorem getD_map_id (rows : List TRecord) (i : Nat) (hi : i < rows.length) :
    (rows.map TRecord.id_str).getD i "" = (rows.getD i defaultT).id_str := by
  induction rows generalizing i with
  | nil => simp at hi
  | cons r rest ih =>
    cases i with
    | zero => simp
    | succ j =>
      simp only [List.map_cons, List.getD_cons_succ]
      exact ih j (by simpa using Nat.lt_of_succ_lt_succ hi)

theorem assignThreadIds_length (pm : List (String × String)) :
    ∀ (ids : List String) (cache : List (String × String)),
      (assignThreadIds pm ids cache).length = ids.length := by
  intro ids
  induction ids with
  | nil => intro cache; rfl
  | cons x rest ih =>
    intro cache
    rw [assignThreadIds]
    simp [ih]

/-- C2: for every table with unique ids containing two records A and B
that reply to each other, every reconstruction walk returns within the
allotted fuel (the while loop terminates, it never loops on the cycle),
and the rows holding A and B are both assigned a thread_id equal to one
of the two ids of the cycle. -/
theorem cycle_termination (rows : List TRecord) (A B : TRecord)
    (hA : A ∈ rows) (hB : B ∈ rows)
    (hnd : (rows.map TRecord.id_str).Nodup)
    (hab : A.id_str ≠ B.id_str)
    (hra : A.reply = some B.id_str) (hrb : B.reply = some A.id_str) :
    (∀ x : String,
      (walkAux (parentMap rows) ((parentMap rows).length + 1) x [x]).isSome) ∧
    (∀ i, i < rows.length →
      ((rows.getD i defaultT).id_str = A.id_str ∨ (rows.getD i defaultT).id_str = B.id_str) →
      ((reconstruct_threads rows).getD i "" = A.id_str ∨
        (reconstruct_threads rows).getD i "" = B.id_str)) := by
  have ha := parentMap_lookup hnd hA hra
  have hb := parentMap_lookup hnd hB hrb
  constructor
  · intro x
    refine walkAux_isSome _ (x :: (parentMap rows).map Prod.snd)
      (fun kv hkv => List.mem_cons_of_mem _ (List.mem_map_of_mem _ hkv))
      _ x [x] (by simp) (by simp) ?_
    simp only [List.length_cons, List.length_map, List.length_singleton]
    omega
  · intro i hi hid
    rw [reconstruct_threads]
    refine assign_pair ha hb hab (rows.map TRecord.id_str) []
      ⟨fun r hr => by simp [List.lookup] at hr, fun r hr => by simp [List.lookup] at hr⟩
      i (by simpa using hi) ?_
    rw [getD_map_id rows i hi]
    exact hid

/-- C2 witness: the two-record cycle table itself, both rows assigned a
thread id among the two cycle ids, and the walk from the first id
terminating. -/
theorem cycle_termination_witness :
    ((walkAux (parentMap cexRows1) ((parentMap cexRows1).length + 1) "A" ["A"]).isSome) ∧
    ((reconstruct_threads cexRows1).getD 0 "" = "A" ∨
      (reconstruct_threads cexRows1).getD 0 "" = "B") ∧
    ((reconstruct_threads cexRows1).getD 1 "" = "A" ∨
      (reconstruct_threads cexRows1).getD 1 "" = "B") := by
  have h := cycle_termination cexRows1 ⟨"A", some "B"⟩ ⟨"B", some "A"⟩
    (by decide) (by decide) (by decide) (by decide) rfl rfl
  exact ⟨h.1 "A", h.2 0 (by decide) (by decide), h.2 1 (by decide) (by decide)⟩

/-! ## Lemmas: acyclic tables reconstruct order-independently -/

theorem find_thread_root_acyclic {pm : List (String × String)}
    (cache : List (String × String))
    (hok : ∀ k r, cache.lookup k = some r → IsRoot pm k r)
    (x : String) (hx : (findRootPath pm x).2 = false) :
    (find_thread_root pm cache x).1 = rootOf pm x ∧
    (∀ k r, (find_thread_root pm cache x).2.lookup k = some r → IsRoot pm k r) := by
  have hwalk : walkAux pm (pm.length + 1) x [x] =
      some ((findRootPath pm x).1, (findRootPath pm x).2) := findRootPath_eq pm x
  rw [hx] at hwalk
  obtain ⟨r, hr1, hr2, hr3, hr4⟩ := walk_false_root pm (pm.length + 1) x [x] _ hwalk rfl
    (by intro n hn; rw [List.mem_singleton] at hn; subst hn; exact Relation.ReflTransGen.refl)
  have hroot : rootOf pm x = r := by
    rw [rootOf]
    exact headD_of_head? x hr1
  have hxroot : IsRoot pm x r := ⟨hr3 x (hr4 (by simp)), hr2⟩
  rw [find_thread_root]
  cases hc : cache.lookup x with
  | some c =>
    refine ⟨?_, hok⟩
    rw [hroot]
    exact root_unique (hok x c hc) hxroot
  | none =>
    dsimp only
    refine ⟨rfl, ?_⟩
    intro k rr hkr
    by_cases hk : k ∈ (findRootPath pm x).1
    · rw [lookup_pair_append hk] at hkr
      have heq : (findRootPath pm x).1.headD x = rr := Option.some.inj hkr
      have : (findRootPath pm x).1.headD x = r := by
        rw [← hroot, rootOf]
      rw [← heq, this]
      exact ⟨hr3 k hk, hr2⟩
    · rw [lookup_pair_append_notmem hk] at hkr
      exact hok k rr hkr

theorem assign_acyclic {pm : List (String × String)} :
    ∀ (ids : List String) (cache : List (String × String)),
      (∀ k r, cache.lookup k = some r → IsRoot pm k r) →
      (∀ x ∈ ids, (findRootPath pm x).2 = false) →
      assignThreadIds pm ids cache = ids.map (rootOf pm) := by
  intro ids
  induction ids with
  | nil => intro cache _ _; rfl
  | cons x rest ih =>
    intro cache hok hacyc
    rw [assignThreadIds, List.map_cons]
    have h := find_thread_root_acyclic cache hok x (hacyc x (by simp))
    rw [h.1]
    rw [ih _ h.2 (fun y hy => hacyc y (List.mem_cons_of_mem _ hy))]

theorem walkAux_congr {pm1 pm2 : List (String × String)}
    (h : ∀ x, pm1.lookup x = pm2.lookup x) :
    ∀ (fuel : Nat) (curr : String) (path : List String),
      walkAux pm1 fuel curr path = walkAux pm2 fuel curr path := by
  intro fuel
  induction fuel with
  | zero => intro curr path; rfl
  | succ f ih =>
    intro curr path
    rw [walkAux, walkAux, ← h curr]
    cases pm1.lookup curr with
    | none => rfl
    | some p =>
      dsimp only
      by_cases hp : p ∈ path
      · rw [if_pos hp, if_pos hp]
      · rw [if_neg hp, if_neg hp, ih]

theorem findRootPath_congr {pm1 pm2 : List (String × String)}
    (h : ∀ x, pm1.lookup x = pm2.lookup x) (hlen : pm1.length = pm2.length)
    (tid : String) : findRootPath pm1 tid = findRootPath pm2 tid := by
  rw [findRootPath, findRootPath, hlen, walkAux_congr h]

/-- C1 counterexample: the mutual-reply pair A and B loaded in the two
possible row orders. Both tables have unique ids and are permutations of
each other, yet the id A is assigned thread_id B under one order and
thread_id A under the other, because the cache seeds every later lookup
with whichever end of the cycle the first walk stopped at. -/
theorem thread_root_order_dependent_cex :
    cexRows1.Perm cexRows2 ∧
    (cexRows1.map TRecord.id_str).Nodup ∧
    (threadIdAssignment cexRows1).lookup "A" = some "B" ∧
    (threadIdAssignment cexRows2).lookup "A" = some "A" := by
  refine ⟨by decide, by decide, by decide, by decide⟩

/-- C1 (amended): thread-root determinism holds on every table whose
reply edges are acyclic. For a table with unique ids on which no
reconstruction walk stops through the cycle check, any row-order
permutation assigns the identical thread_id to each record id; tables
with cyclic edges can assign differently (see the counterexample), and
thread_step_index stays order-sensitive either way. -/
theorem thread_root_determinism_acyclic (rows1 rows2 : List TRecord)
    (hperm : rows1.Perm rows2)
    (hnd : (rows1.map TRecord.id_str).Nodup)
    (hacyc : ∀ r ∈ rows1, (findRootPath (parentMap rows1) r.id_str).2 = false)
    (x : String) :
    (threadIdAssignment rows1).lookup x = (threadIdAssignment rows2).lookup x := by
  have hpm : (parentMap rows1).Perm (parentMap rows2) := hperm.filterMap _
  have hndk : ((parentMap rows1).map Prod.fst).Nodup :=
    (parentMap_keys_sublist rows1).nodup hnd
  have hl : ∀ k, (parentMap rows1).lookup k = (parentMap rows2).lookup k :=
    lookup_eq_of_perm hpm hndk
  have hlen := hpm.length_eq
  have hroot : ∀ tid, rootOf (parentMap rows1) tid = rootOf (parentMap rows2) tid := by
    intro tid
    rw [rootOf, rootOf, findRootPath_congr hl hlen]
  have hacyc1 : ∀ y ∈ rows1.map TRecord.id_str,
      (findRootPath (parentMap rows1) y).2 = false := by
    intro y hy
    rcases List.mem_map.mp hy with ⟨r, hr, rfl⟩
    exact hacyc r hr
  have hacyc2 : ∀ y ∈ rows2.map TRecord.id_str,
      (findRootPath (parentMap rows2) y).2 = false := by
    intro y hy
    rcases List.mem_map.mp hy with ⟨r, hr, rfl⟩
    rw [← findRootPath_congr hl hlen]
    exact hacyc r (hperm.mem_iff.mpr hr)
  have e1 : reconstruct_threads rows1 =
      (rows1.map TRecord.id_str).map (rootOf (parentMap rows1)) :=
    assign_acyclic _ _ (fun k r h => by simp [List.lookup] at h) hacyc1
  have e2 : reconstruct_threads rows2 =
      (rows2.map TRecord.id_str).map (rootOf (parentMap rows2)) :=
    assign_acyclic _ _ (fun k r h => by simp [List.lookup] at h) hacyc2
  rw [threadIdAssignment, threadIdAssignment, e1, e2, lookup_zip_map, lookup_zip_map]
  have hmem : x ∈ rows1.map TRecord.id_str ↔ x ∈ rows2.map TRecord.id_str :=
    (hperm.map _).mem_iff
  by_cases hx : x ∈ rows1.map TRecord.id_str
  · rw [if_pos hx, if_pos (hmem.mp hx), hroot]
  · rw [if_neg hx, if_neg (fun h => hx (hmem.mpr h))]

/-- C1 witness: an acyclic two-record chain in its two row orders; the
amended determinism theorem yields the equality of the assignment looked
up at the id B. -/
theorem thread_root_determinism_acyclic_witness :
    (threadIdAssignment wRows1).lookup "B" = (threadIdAssignment wRows2).lookup "B" :=
  thread_root_determinism_acyclic wRows1 wRows2 (by decide) (by decide) (by decide) "B"

/-- C3 counterexample: a record whose explicit retweeted flag is present
and false but whose text starts with RT @ is classified is_retweet =
false by detect_retweet, because the function returns the boolean value
of the explicit flag whenever it is present and non-null. -/
theorem retweet_flag_false_overrides_text_cex :
    detect_retweet { defaultRaw with
      retweeted := some false, full_text := some "RT @alice: hi" } = false := by
  decide

/-- C3 (amended): the explicit retweet flag wins whenever present and
non-null — false yields false even when the text starts with RT @, and
true yields true for any text; the RT @ text-prefix heuristic applies
only when the flag is absent and no retweeted_status object is
present. -/
theorem retweet_detection_precedence_amended (row : RawRow) (t : String)
    (ht : strStartsWith t "RT @" = true) :
    (row.retweeted = some false → detect_retweet row = false) ∧
    (row.retweeted = some true → detect_retweet row = true) ∧
    (row.retweeted = none → row.retweeted_status = false → row.full_text = some t →
      detect_retweet row = true) := by
  refine ⟨fun h => ?_, fun h => ?_, fun h1 h2 h3 => ?_⟩
  · rw [detect_retweet, h]
  · rw [detect_retweet, h]
  · rw [detect_retweet, h1]
    dsimp only
    rw [if_neg (by rw [h2]; exact Bool.false_ne_true), h3]
    simpa using ht

/-- C3 witness: the amended precedence at the concrete record with no
flag, no retweeted_status and text starting with RT @. -/
theorem retweet_detection_precedence_amended_witness :
    detect_retweet { defaultRaw with full_text := some "RT @alice: hi" } = true :=
  (retweet_detection_precedence_amended
    { defaultRaw with full_text := some "RT @alice: hi" }
    "RT @alice: hi" (by decide)).2.2 rfl rfl rfl

/-- C4: account_tier takes one of the three ordered labels, tiers start
inclusively, and the four boundary instants fall in the claimed tiers:
the 2023-09-12 midnight instant is upgraded, one second before it is
pre-upgrade, the 2024-09-12 midnight instant is still upgraded
(inclusive upper bound), and one second after it is post-upgrade. The
code spells the labels with a tier_ prefix. -/
theorem account_tier_boundaries :
    assign_tier (some ⟨2023, 9, 12, 0, 0, 0⟩) = "tier_upgraded" ∧
    assign_tier (some ⟨2023, 9, 11, 23, 59, 59⟩) = "tier_pre_upgrade" ∧
    assign_tier (some ⟨2024, 9, 12, 0, 0, 0⟩) = "tier_upgraded" ∧
    assign_tier (some ⟨2024, 9, 12, 0, 0, 1⟩) = "tier_post_upgrade" ∧
    ∀ ts : UTCTime,
      assign_tier (some ts) = "tier_pre_upgrade" ∨
      assign_tier (some ts) = "tier_upgraded" ∨
      assign_tier (some ts) = "tier_post_upgrade" := by
  refine ⟨by decide, by decide, by decide, by decide, fun ts => ?_⟩
  rw [assign_tier]
  by_cases h1 : ts.key < TIER_UPGRADED_START.key
  · rw [if_pos h1]
    exact Or.inl rfl
  · rw [if_neg h1]
    by_cases h2 : TIER_UPGRADED_START.key ≤ ts.key ∧ ts.key ≤ TIER_POST_UPGRADE_START.key
    · rw [if_pos h2]
      exact Or.inr (Or.inl rfl)
    · rw [if_neg h2]
      exact Or.inr (Or.inr rfl)

/-- C5: the core sample holds exactly the rows that are neither retweets
nor quote tweets and whose reply_type is none or reply_other; a row
whose reply-target user id equals the nonempty resolved self id is
classified reply_own and therefore excluded, while a row replying to a
different user (with whatever text) is kept when its flags are clear. -/
theorem core_sample_membership (rows : List FeatRow) (r : FeatRow)
    (selfId otherId : String) (hself : selfId ≠ "") (hother : otherId ≠ selfId) :
    (r ∈ create_core_sample rows ↔
      r ∈ rows ∧ r.is_retweet = false ∧ r.is_quote_tweet = false ∧
        (r.reply_type = "none" ∨ r.reply_type = "reply_other")) ∧
    classify_reply (some selfId) selfId = "reply_own" ∧
    classify_reply (some otherId) selfId = "reply_other" ∧
    (r.reply_type = classify_reply (some selfId) selfId →
      r ∉ create_core_sample rows) ∧
    (r ∈ rows → r.is_retweet = false → r.is_quote_tweet = false →
      r.reply_type = classify_reply (some otherId) selfId →
      r ∈ create_core_sample rows) := by
  have hmem : r ∈ create_core_sample rows ↔
      r ∈ rows ∧ r.is_retweet = false ∧ r.is_quote_tweet = false ∧
        (r.reply_type = "none" ∨ r.reply_type = "reply_other") := by
    rw [create_core_sample, List.mem_filter, coreMask]
    simp [Bool.and_eq_true, Bool.or_eq_true, Bool.not_eq_true', and_assoc]
  have hown : classify_reply (some selfId) selfId = "reply_own" := by
    rw [classify_reply]
    exact if_pos ⟨rfl, hself⟩
  have hoth : classify_reply (some otherId) selfId = "reply_other" := by
    rw [classify_reply]
    exact if_neg (fun hc => hother hc.1)
  refine ⟨hmem, hown, hoth, ?_, ?_⟩
  · intro hrt hin
    rcases (hmem.mp hin).2.2.2 with h | h <;> rw [hrt, hown] at h <;> exact absurd h (by decide)
  · intro hin hrt hq hrep
    rw [hoth] at hrep
    exact hmem.mpr ⟨hin, hrt, hq, Or.inr hrep⟩

/-- C5 witness: with self id 7 and other id 8, a reply_own row is
excluded from the core sample and a clean reply_other row is kept. -/
theorem core_sample_membership_witness :
    exFeatOther ∈ create_core_sample [exFeatOwn, exFeatOther] ∧
    exFeatOwn ∉ create_core_sample [exFeatOwn, exFeatOther] := by
  have h1 := core_sample_membership [exFeatOwn, exFeatOther] exFeatOther "7" "8"
    (by decide) (by decide)
  have h2 := core_sample_membership [exFeatOwn, exFeatOther] exFeatOwn "7" "8"
    (by decide) (by decide)
  refine ⟨h1.2.2.2.2 (by decide) rfl rfl ?_, h2.2.2.2.1 ?_⟩
  · rw [h1.2.2.1]
    rfl
  · rw [h2.2.1]
    rfl

/-- C6: the core sample filter is idempotent: filtering an already
filtered table changes nothing. -/
theorem core_sample_filter_idempotent (rows : List FeatRow) :
    create_core_sample (create_core_sample rows) = create_core_sample rows := by
  simp [create_core_sample, List.filter_filter]

/-- C10 (code evaluation at the failing input): a two-line JSON Lines
document of flat records is one of the supported shapes, yet
load_archive falls through the line-parsing stage without returning and
then fails the whole-document json.load with an uncaught
JSONDecodeError — not the ValueError that names unsupported structures,
and not the empty or loaded table the contract promises. -/
theorem load_archive_flat_jsonl_decode_error :
    load_archive exDoc10 = Except.error LoadError.jsonDecodeError ∧
    LoadError.jsonDecodeError ≠ LoadError.unsupportedStructure :=
  ⟨rfl, by decide⟩

/-! ## Lemmas: the feature-engineering pipeline -/

theorem getD_mem_of_lt {α : Type} {l : List α} {i : Nat} (d : α) (h : i < l.length) :
    l.getD i d ∈ l := by
  induction l generalizing i with
  | nil => simp at h
  | cons a t ih =>
    cases i with
    | zero => simp
    | succ j =>
      rw [List.getD_cons_succ]
      exact List.mem_cons_of_mem _ (ih (by simpa using Nat.lt_of_succ_lt_succ h))

theorem mem_zipWith {α β γ : Type} {g : α → β → γ} {c : γ} :
    ∀ {l1 : List α} {l2 : List β}, c ∈ List.zipWith g l1 l2 →
      ∃ a b, a ∈ l1 ∧ b ∈ l2 ∧ c = g a b := by
  intro l1
  induction l1 with
  | nil => intro l2 h; simp at h
  | cons a t ih =>
    intro l2 h
    cases l2 with
    | nil => simp at h
    | cons b t2 =>
      rw [List.zipWith_cons_cons] at h
      rcases List.mem_cons.mp h with rfl | h
      · exact ⟨a, b, by simp, by simp, rfl⟩
      · rcases ih h with ⟨x, y, hx, hy, rfl⟩
        exact ⟨x, y, List.mem_cons_of_mem _ hx, List.mem_cons_of_mem _ hy, rfl⟩

theorem map_zipWith_left {α β γ δ : Type} (g : α → β → γ) (φ : γ → δ) (ψ : α → δ)
    (hg : ∀ a b, φ (g a b) = ψ a) :
    ∀ (l1 : List α) (l2 : List β), l1.length = l2.length →
      (List.zipWith g l1 l2).map φ = l1.map ψ := by
  intro l1
  induction l1 with
  | nil => intro l2 _; rfl
  | cons a t ih =>
    intro l2 h
    cases l2 with
    | nil => simp at h
    | cons b t2 =>
      rw [List.zipWith_cons_cons, List.map_cons, List.map_cons, hg,
        ih t2 (by simpa using h)]

theorem reconstruct_threads_length (rows : List TRecord) :
    (reconstruct_threads rows).length = rows.length := by
  rw [reconstruct_threads, assignThreadIds_length, List.length_map]

theorem engineerCore_map_proj {δ : Type} (rows : List RawRow) (u : Option String)
    (φ : FeatRow → δ)
    (hφ : ∀ f tid, φ { f with thread_id := tid } = φ f) :
    (engineerCore rows u).map φ =
      ((List.insertionSort rowLe rows).map fillText).map
        (fun r => φ (mkFeat r (u.getD MY_USER_ID)
          (quantileLinear WINSORIZE_THRESHOLD
            (((List.insertionSort rowLe rows).map fillText).map
              (fun s => ((totalEngagement s : Int) : ℚ)))))) := by
  rw [engineerCore]
  rw [map_zipWith_left _ φ φ (fun a b => hφ a b) _ _
    (by simp [reconstruct_threads_length])]
  rw [List.map_map]
  rfl

theorem engineerCore_mem {rows : List RawRow} {u : Option String} {r : FeatRow}
    (hr : r ∈ engineerCore rows u) :
    ∃ raw tid, raw ∈ (List.insertionSort rowLe rows).map fillText ∧
      r = { mkFeat raw (u.getD MY_USER_ID)
        (quantileLinear WINSORIZE_THRESHOLD
          (((List.insertionSort rowLe rows).map fillText).map
            (fun s => ((totalEngagement s : Int) : ℚ)))) with thread_id := tid } := by
  rw [engineerCore] at hr
  rcases mem_zipWith hr with ⟨f, tid, hf, htid, rfl⟩
  rcases List.mem_map.mp hf with ⟨raw, hraw, rfl⟩
  refine ⟨raw, tid, hraw, ?_⟩
  rfl

theorem engineer_features_ok_out {t : RawTable} {u : Option String} {out : List FeatRow}
    (h : engineer_features t u = Except.ok out) : out = engineerCore t.rows u := by
  rw [engineer_features] at h
  cases hc : t.hasCreatedAt <;> cases ht : t.hasText <;> cases hi : t.hasId <;>
    rw [hc, ht, hi] at h <;> simp at h
  exact h.symm

theorem engineer_features_error_iff (t : RawTable) (u : Option String) :
    (∃ e, engineer_features t u = Except.error e) ↔
      ¬(t.hasCreatedAt = true ∧ t.hasText = true ∧ t.hasId = true) := by
  rw [engineer_features]
  cases hc : t.hasCreatedAt <;> cases ht : t.hasText <;> cases hi : t.hasId <;> simp

theorem engineerCore_post_datetime_sorted (rows : List RawRow) (u : Option String) :
    ((engineerCore rows u).map FeatRow.post_datetime).Pairwise
      (fun a b => tsLe a b = true) := by
  have hmap : (engineerCore rows u).map FeatRow.post_datetime =
      (List.insertionSort rowLe rows).map (fun r => r.created_at) := by
    rw [engineerCore_map_proj rows u FeatRow.post_datetime (fun f tid => rfl),
      List.map_map]
    rfl
  rw [hmap]
  exact List.Pairwise.map _ (fun a b hab => hab) (List.sorted_insertionSort rowLe rows)

/-- C7: on every feature-engineered table, each row's total_engagement is
the sum of its likes, retweets, replies and bookmarks, its winsorized
engagement is the total clipped at the 95th percentile of the totals of
that same table (pandas linear-interpolation quantile; ties at the cap
stay at the cap because clipping takes the minimum), and hence no
winsorized value exceeds the computed cap. -/
theorem engagement_winsorization (t : RawTable) (u : Option String) (out : List FeatRow)
    (hok : engineer_features t u = Except.ok out) (r : FeatRow) (hr : r ∈ out) :
    r.total_engagement = r.likes + r.retweets + r.replies + r.bookmarks ∧
    r.winsorized_engagement = min ((r.total_engagement : Int) : ℚ)
      (quantileLinear WINSORIZE_THRESHOLD
        (out.map (fun s => ((s.total_engagement : Int) : ℚ)))) ∧
    r.winsorized_engagement ≤ quantileLinear WINSORIZE_THRESHOLD
      (out.map (fun s => ((s.total_engagement : Int) : ℚ))) := by
  have hout : out = engineerCore t.rows u := engineer_features_ok_out hok
  subst hout
  have hcap : (engineerCore t.rows u).map (fun s => ((s.total_engagement : Int) : ℚ)) =
      ((List.insertionSort rowLe t.rows).map fillText).map
        (fun s => ((totalEngagement s : Int) : ℚ)) :=
    engineerCore_map_proj _ _ _ (fun f tid => rfl)
  rcases engineerCore_mem hr with ⟨raw, tid, hraw, rfl⟩
  rw [hcap]
  exact ⟨rfl, rfl, min_le_right _ _⟩

/-- C7 witness: the two-row example table, instantiated at its first
output row. -/
theorem engagement_winsorization_witness :
    (exOut9.getD 0 defaultFeat).total_engagement =
      (exOut9.getD 0 defaultFeat).likes + (exOut9.getD 0 defaultFeat).retweets +
      (exOut9.getD 0 defaultFeat).replies + (exOut9.getD 0 defaultFeat).bookmarks ∧
    (exOut9.getD 0 defaultFeat).winsorized_engagement ≤
      quantileLinear WINSORIZE_THRESHOLD
        (exOut9.map (fun s => ((s.total_engagement : Int) : ℚ))) := by
  have h := engagement_winsorization exT9 none exOut9 rfl (exOut9.getD 0 defaultFeat)
    (getD_mem_of_lt defaultFeat (by decide))
  exact ⟨h.1, h.2.2⟩

/-- C8 counterexample: on the single-row table whose text cell is null,
the returned table's text column holds the empty string where the input
held null — the resolved text column is an original column and its
values are rewritten by the null-fill, so not every original column is
preserved with its original values. -/
theorem engineer_features_text_rewrite_cex :
    engineer_features exT8 none = Except.ok exOut8 ∧
    exT8.rows.map (fun r => r.full_text) = [none] ∧
    exOut8.map (fun r => r.orig.full_text) = [some ""] :=
  ⟨rfl, rfl, by decide⟩

/-- C8 (amended): engineer_features works on a copy and returns a new
table (purity is inherent in the embedding); the returned rows carry
every original column of the input rows unchanged — reordered
chronologically, hence equality up to permutation — except the resolved
text column, whose null cells are rewritten to the empty string and
whose non-null cells are preserved; derived columns are only added. -/
theorem engineer_features_frame_amended (t : RawTable) (u : Option String)
    (out : List FeatRow) (hok : engineer_features t u = Except.ok out) (r : RawRow) :
    (out.map FeatRow.orig).Perm (t.rows.map fillText) ∧
    (fillText r).id_str = r.id_str ∧
    (fillText r).created_at = r.created_at ∧
    (fillText r).retweeted = r.retweeted ∧
    (fillText r).retweeted_status = r.retweeted_status ∧
    (fillText r).is_quote_status = r.is_quote_status ∧
    (fillText r).quoted_status_id_str = r.quoted_status_id_str ∧
    (fillText r).has_status_link_url = r.has_status_link_url ∧
    (fillText r).in_reply_to_status_id_str = r.in_reply_to_status_id_str ∧
    (fillText r).in_reply_to_user_id_str = r.in_reply_to_user_id_str ∧
    (fillText r).favorite_count = r.favorite_count ∧
    (fillText r).retweet_count = r.retweet_count ∧
    (fillText r).reply_count = r.reply_count ∧
    (fillText r).bookmark_count = r.bookmark_count ∧
    (r.full_text ≠ none → (fillText r).full_text = r.full_text) := by
  refine ⟨?_, rfl, rfl, rfl, rfl, rfl, rfl, rfl, rfl, rfl, rfl, rfl, rfl, rfl, ?_⟩
  · have hout : out = engineerCore t.rows u := engineer_features_ok_out hok
    subst hout
    have hmap : (engineerCore t.rows u).map FeatRow.orig =
        (List.insertionSort rowLe t.rows).map fillText := by
      rw [engineerCore_map_proj t.rows u FeatRow.orig (fun f tid => rfl)]
      exact List.map_id' _
    rw [hmap]
    exact (List.perm_insertionSort rowLe t.rows).map fillText
  · intro h
    cases hft : r.full_text with
    | none => exact absurd hft h
    | some s => simp [fillText, hft]

/-- C8 witness: the amended frame condition at the two-row example table;
the original columns of the output are a permutation of the null-filled
input rows. -/
theorem engineer_features_frame_amended_witness :
    (exOut9.map FeatRow.orig).Perm (exT9.rows.map fillText) :=
  (engineer_features_frame_amended exT9 none exOut9 rfl defaultRaw).1

/-- C9: engineer_features fails with its typed error exactly when one of
the three required concepts — timestamp, text or id column — does not
resolve; on success, malformed per-row values have been absorbed: each
output row's post_datetime is the parse result of its created_at cell
(null for an unparsable value), rows whose timestamp is null are placed
after every row with a valid timestamp, and missing or non-numeric
engagement cells are coerced to 0. -/
theorem engineer_features_failure_semantics (t : RawTable) (u : Option String) :
    ((∃ e, engineer_features t u = Except.error e) ↔
      ¬(t.hasCreatedAt = true ∧ t.hasText = true ∧ t.hasId = true)) ∧
    (∀ out, engineer_features t u = Except.ok out →
      (∀ r ∈ out, r.post_datetime = r.orig.created_at ∧
        (r.orig.favorite_count = none → r.likes = 0) ∧
        (r.orig.retweet_count = none → r.retweets = 0) ∧
        (r.orig.reply_count = none → r.replies = 0) ∧
        (r.orig.bookmark_count = none → r.bookmarks = 0)) ∧
      (∀ i j (hij : i < j) (hj : j < out.length),
        (out.get ⟨i, Nat.lt_trans hij hj⟩).post_datetime = none →
        (out.get ⟨j, hj⟩).post_datetime = none)) := by
  refine ⟨engineer_features_error_iff t u, ?_⟩
  intro out hok
  have hout : out = engineerCore t.rows u := engineer_features_ok_out hok
  subst hout
  constructor
  · intro r hr
    rcases engineerCore_mem hr with ⟨raw, tid, hraw, rfl⟩
    refine ⟨rfl, fun h => ?_, fun h => ?_, fun h => ?_, fun h => ?_⟩
    · have h2 : raw.favorite_count = none := h
      show likesOf raw = 0
      rw [likesOf, h2]
      rfl
    · have h2 : raw.retweet_count = none := h
      show retweetsOf raw = 0
      rw [retweetsOf, h2]
      rfl
    · have h2 : raw.reply_count = none := h
      show repliesOf raw = 0
      rw [repliesOf, h2]
      rfl
    · have h2 : raw.bookmark_count = none := h
      show bookmarksOf raw = 0
      rw [bookmarksOf, h2]
      rfl
  · intro i j hij hj hnone
    have hpair := engineerCore_post_datetime_sorted t.rows u
    have hlen : ((engineerCore t.rows u).map FeatRow.post_datetime).length =
        (engineerCore t.rows u).length := List.length_map _ _
    have hrel := (List.pairwise_iff_get.mp hpair)
      ⟨i, by rw [hlen]; exact Nat.lt_trans hij hj⟩ ⟨j, by rw [hlen]; exact hj⟩ hij
    rw [List.get_map, List.get_map] at hrel
    have hi2 : ((engineerCore t.rows u).get
        ⟨i, Nat.lt_trans hij hj⟩).post_datetime = none := hnone
    rw [hi2] at hrel
    cases hjv : ((engineerCore t.rows u).get ⟨j, hj⟩).post_datetime with
    | none => rfl
    | some v =>
      rw [hjv] at hrel
      rw [tsLe] at hrel
      cases hrel

/-- C9 witness: on the two-row example table the call succeeds (no
required concept is missing), the degraded row keeps a null
post_datetime, and its missing favorite count is coerced to likes 0. -/
theorem engineer_features_failure_semantics_witness :
    (exOut9.getD 1 defaultFeat).post_datetime = none ∧
    (exOut9.getD 1 defaultFeat).likes = 0 ∧
    ¬(∃ e, engineer_features exT9 none = Except.error e) := by
  have h := engineer_features_failure_semantics exT9 none
  have hmem := getD_mem_of_lt defaultFeat (show 1 < exOut9.length by decide)
  have h2 := (h.2 exOut9 rfl).1 _ hmem
  refine ⟨?_, h2.2.1 (by decide), ?_⟩
  · rw [h2.1]
    decide
  · rw [h.1]
    decide
